import Mathlib

/-!
Shallow embedding of `src/generate_data.py`, the data-generation-and-labeling
pipeline of the compliance-risk-engine repository, together with theorems
settling the specification claims about it.

The script is a single linear pipeline: asset generation, access-log
generation, an enrichment merge, anomaly injection, violation labeling, and
CSV writing.  All randomness comes from one seeded numpy generator; every
random draw is modelled here as an explicit oracle argument (a natural
number or boolean reduced into the draw's range by `%`, mirroring the
uniform choice the code makes over that range).
-/

/-- IP region enum: `np.random.choice(['US', 'EU', 'AS'] ...)` values. -/
inductive Region where
  | US
  | EU
  | AS
deriving DecidableEq, Repr

/-- Encryption status enum: `np.random.choice(['Encrypted', 'Plain'] ...)` values. -/
inductive EncStatus where
  | Encrypted
  | Plain
deriving DecidableEq, Repr

/-- Access type enum: `np.random.choice(['Read', 'Write'] ...)` values. -/
inductive AccessType where
  | Read
  | Write
deriving DecidableEq, Repr

/-- A generated timestamp.  The script builds each timestamp as
`datetime(2024,1,1) + timedelta(days, hours, minutes)` with
`days < 180`, `hours < 24`, `minutes < 60`, so the date part is determined
by the day offset alone and seconds are always zero; `day` records that
offset from the fixed epoch. -/
structure Timestamp where
  day : Nat
  hour : Nat
  minute : Nat
deriving DecidableEq, Repr

/-- One row of `df_metadata`: columns `Data_Asset_ID`, `PHI_Flag`,
`Encryption_Status`. -/
structure Asset where
  dataAssetId : String
  phiFlag : Bool
  encryptionStatus : EncStatus
deriving DecidableEq, Repr

/-- One row of `df_access_logs` as generated (before the metadata merge):
columns `Timestamp`, `User_ID`, `Data_Asset_ID`, `Access_Type`,
`IP_Location`. -/
structure RawLogRow where
  timestamp : Timestamp
  userId : String
  dataAssetId : String
  accessType : AccessType
  ipLocation : Region
deriving DecidableEq, Repr

/-- One row of `df_access_logs` after the merge with `df_metadata` and the
initialisation `df_access_logs['Policy_Violation'] = 0`: the raw columns
plus the denormalized `PHI_Flag` and `Encryption_Status` and the
`Policy_Violation` column. -/
structure LogRow where
  timestamp : Timestamp
  userId : String
  dataAssetId : String
  accessType : AccessType
  ipLocation : Region
  phiFlag : Bool
  encryptionStatus : EncStatus
  policyViolation : Nat
deriving DecidableEq, Repr

/-- The three checks of the labeling loop (lines 129-143), combined: the
loop starts from `violation = False` and each check may set it to `True`,
which is the disjunction of the three conditions. -/
def violationHolds (r : LogRow) : Bool :=
  (r.phiFlag && r.encryptionStatus == EncStatus.Plain)
    || (decide (r.timestamp.hour ≥ 21) || decide (r.timestamp.hour < 5))
    || (r.ipLocation != Region.US)

/-- One iteration of the labeling loop: write `1` into `Policy_Violation`
if any check fired, else `0` (line 145). -/
def labelRow (r : LogRow) : LogRow :=
  { r with policyViolation := if violationHolds r then 1 else 0 }

/-- The whole labeling pass over the table (the `iterrows` loop, which
reads only the non-label columns of the current row and writes only its
`Policy_Violation` cell). -/
def labelTable (t : List LogRow) : List LogRow :=
  t.map labelRow

/-- A sample in-range row used to instantiate hypotheses concretely. -/
def sampleRow : LogRow :=
  { timestamp := { day := 10, hour := 12, minute := 30 }
    userId := "USER_001"
    dataAssetId := "ASSET_0001"
    accessType := AccessType.Read
    ipLocation := Region.US
    phiFlag := false
    encryptionStatus := EncStatus.Encrypted
    policyViolation := 0 }

/-- Python f-string zero-padding `{i:04d}` (line 30 of the script): the
decimal digits of `i` left-padded with zeros to width 4; a value needing
more than four digits prints unpadded.  The generator only uses
`1 ≤ i ≤ 500`, all below 10000. -/
def pad4 (n : Nat) : String :=
  if n < 10000 then
    String.mk [Nat.digitChar (n / 1000 % 10), Nat.digitChar (n / 100 % 10),
      Nat.digitChar (n / 10 % 10), Nat.digitChar (n % 10)]
  else Nat.repr n

/-- Python f-string zero-padding `{i:03d}` (line 61): width 3. -/
def pad3 (n : Nat) : String :=
  if n < 1000 then
    String.mk [Nat.digitChar (n / 100 % 10), Nat.digitChar (n / 10 % 10),
      Nat.digitChar (n % 10)]
  else Nat.repr n

/-- `f'ASSET_{i:04d}'` (line 30). -/
def assetId (i : Nat) : String := "ASSET_" ++ pad4 i

/-- `df_metadata` (lines 28-33): `n` assets whose IDs come from
`range(1, n+1)`; the per-asset `PHI_Flag` and `Encryption_Status` random
draws are oracles indexed by row position. -/
def genMetadata (n : Nat) (phiDraw : Nat → Bool) (encDraw : Nat → EncStatus) : List Asset :=
  (List.range n).map fun j =>
    { dataAssetId := assetId (j + 1), phiFlag := phiDraw j, encryptionStatus := encDraw j }

/-- The asset table's `Data_Asset_ID` column. -/
def assetIds (metadata : List Asset) : List String :=
  metadata.map Asset.dataAssetId

/-- The random draws consumed while generating one access-log row
(lines 52-64), as oracle values; each is reduced into its range by `%`,
mirroring the uniform draw the code makes over that range. -/
structure LogDraw where
  daysOffset : Nat
  hoursOffset : Nat
  minutesOffset : Nat
  userDraw : Nat
  assetDraw : Nat
  readDraw : Bool
  regionDraw : Nat

/-- One generated access-log row (lines 52-64): timestamp built from
`datetime(2024,1,1) + timedelta(days∈[0,180), hours∈[0,24), minutes∈[0,60))`,
user ID `USER_001 .. USER_100`, asset ID sampled from the metadata ID
column (`np.random.choice(df_metadata['Data_Asset_ID'])`), access type in
{Read, Write} and IP region in {US, EU, AS}. -/
def genLogRow (metadata : List Asset) (d : LogDraw) : RawLogRow :=
  { timestamp :=
      { day := d.daysOffset % 180, hour := d.hoursOffset % 24, minute := d.minutesOffset % 60 }
    userId := "USER_" ++ pad3 (1 + d.userDraw % 100)
    dataAssetId := (assetIds metadata).getD (d.assetDraw % metadata.length) ""
    accessType := if d.readDraw then AccessType.Read else AccessType.Write
    ipLocation :=
      if d.regionDraw % 3 = 0 then Region.US
      else if d.regionDraw % 3 = 1 then Region.EU
      else Region.AS }

/-- The left merge with `df_metadata` on `Data_Asset_ID` (lines 77-81),
plus the later `df_access_logs['Policy_Violation'] = 0` initialisation
(line 126, which the injection never reads or writes): the row gains the
matching asset's `PHI_Flag` and `Encryption_Status`.  A row whose ID
matches no asset would get NaN fields from the left join; that case is
unreachable in the script (IDs are drawn from the table itself) and is
modelled by arbitrary defaults. -/
def enrich (metadata : List Asset) (r : RawLogRow) : LogRow :=
  match metadata.find? (fun a => a.dataAssetId == r.dataAssetId) with
  | some a =>
      { timestamp := r.timestamp, userId := r.userId, dataAssetId := r.dataAssetId
        accessType := r.accessType, ipLocation := r.ipLocation
        phiFlag := a.phiFlag, encryptionStatus := a.encryptionStatus, policyViolation := 0 }
  | none =>
      { timestamp := r.timestamp, userId := r.userId, dataAssetId := r.dataAssetId
        accessType := r.accessType, ipLocation := r.ipLocation
        phiFlag := false, encryptionStatus := EncStatus.Encrypted, policyViolation := 0 }

/-- The three anomaly patterns of
`np.random.choice(['plain_phi', 'off_hours', 'non_us'] ...)` (line 94). -/
inductive AnomalyType where
  | plain_phi
  | off_hours
  | non_us
deriving DecidableEq, Repr

/-- The random draws consumed for one selected row inside the injection
loop (lines 90-117), as oracle values. -/
structure AnomalyDraw where
  atype : AnomalyType
  assetDraw : Nat
  hourDraw : Nat
  minuteDraw : Nat
  euPick : Bool

/-- `plain_phi_assets` (lines 98-101): the IDs of the assets with
`PHI_Flag == True` and `Encryption_Status == 'Plain'`. -/
def plainPhiIds (metadata : List Asset) : List String :=
  (metadata.filter fun a => a.phiFlag && a.encryptionStatus == EncStatus.Plain).map
    Asset.dataAssetId

/-- `list(range(21, 24)) + list(range(0, 5))` (line 109). -/
def offHoursChoices : List Nat := [21, 22, 23, 0, 1, 2, 3, 4]

/-- The body of the injection loop for one selected row (lines 91-117):
one anomaly type is drawn and only the corresponding fields are mutated.
`plain_phi` swaps the asset ID to a plaintext-PHI asset and re-sets the
denormalized fields to match, unless no such asset exists (then the row is
returned unchanged, lines 102-105); `off_hours` rewrites the timestamp's
hour and minute, keeping the date (`datetime.replace`, lines 109-111);
`non_us` rewrites the IP region to EU or AS (line 115). -/
def applyAnomaly (metadata : List Asset) (d : AnomalyDraw) (row : LogRow) : LogRow :=
  match d.atype with
  | AnomalyType.plain_phi =>
      let ids := plainPhiIds metadata
      if 0 < ids.length then
        { row with dataAssetId := ids.getD (d.assetDraw % ids.length) ""
                   phiFlag := true, encryptionStatus := EncStatus.Plain }
      else row
  | AnomalyType.off_hours =>
      { row with timestamp :=
          { day := row.timestamp.day
            hour := offHoursChoices.getD (d.hourDraw % 8) 0
            minute := d.minuteDraw % 60 } }
  | AnomalyType.non_us =>
      { row with ipLocation := if d.euPick then Region.EU else Region.AS }

/-- `anomaly_indices = normal_indices[:n_anomalies]` after the shuffle
(lines 84-86): the first `k` entries of a permutation of all row indices. -/
def anomalyIndices (perm : List Nat) (k : Nat) : List Nat := perm.take k

/-- Recursive worker for `injectAnomalies`; `i` is the index of the first
row of the remaining suffix. -/
def injectFrom (metadata : List Asset) (draws : Nat → AnomalyDraw) (sel : List Nat) :
    Nat → List LogRow → List LogRow
  | _, [] => []
  | i, row :: rest =>
      (if i ∈ sel then applyAnomaly metadata (draws i) row else row)
        :: injectFrom metadata draws sel (i + 1) rest

/-- The whole injection pass (lines 89-120): each selected row is replaced
by its mutated copy (`df_access_logs.loc[anomaly_indices] = anomaly_rows`
reads every pre-assignment row, mutates the selected copies, and writes
them all back at once), every other row is untouched.  `draws i` stands
for the random values the loop consumes for row index `i`. -/
def injectAnomalies (metadata : List Asset) (draws : Nat → AnomalyDraw) (sel : List Nat)
    (t : List LogRow) : List LogRow :=
  injectFrom metadata draws sel 0 t

/-- The denormalization invariant checked pointwise: the row's `PHI_Flag`
and `Encryption_Status` equal those of the asset its `Data_Asset_ID`
resolves to in the asset table. -/
def consistentRow (metadata : List Asset) (r : LogRow) : Bool :=
  match metadata.find? (fun a => a.dataAssetId == r.dataAssetId) with
  | some a => r.phiFlag == a.phiFlag && r.encryptionStatus == a.encryptionStatus
  | none => false

/-- A sample asset used to instantiate hypotheses concretely. -/
def sampleAsset : Asset :=
  { dataAssetId := "ASSET_0001", phiFlag := true, encryptionStatus := EncStatus.Plain }

/-- A sample raw log row referencing `sampleAsset`. -/
def sampleRaw : RawLogRow :=
  { timestamp := { day := 10, hour := 12, minute := 30 }
    userId := "USER_001"
    dataAssetId := "ASSET_0001"
    accessType := AccessType.Read
    ipLocation := Region.US }

/-- A sample anomaly draw of the `non_us` type. -/
def sampleNonUsDraw : AnomalyDraw :=
  { atype := AnomalyType.non_us, assetDraw := 0, hourDraw := 0, minuteDraw := 0, euPick := true }

/-- A sample anomaly draw of the `off_hours` type. -/
def sampleOffHoursDraw : AnomalyDraw :=
  { atype := AnomalyType.off_hours, assetDraw := 0, hourDraw := 0, minuteDraw := 0, euPick := true }

/-- A sample anomaly draw of the `plain_phi` type. -/
def samplePlainPhiDraw : AnomalyDraw :=
  { atype := AnomalyType.plain_phi, assetDraw := 0, hourDraw := 0, minuteDraw := 0, euPick := true }

/-- A sample log-generation draw. -/
def sampleLogDraw : LogDraw :=
  { daysOffset := 5, hoursOffset := 13, minutesOffset := 7, userDraw := 3, assetDraw := 2
    readDraw := true, regionDraw := 0 }

/-- `sampleRow` with an EU IP region. -/
def euRow : LogRow :=
  { sampleRow with ipLocation := Region.EU }

/-- An asset that is not plaintext PHI (encrypted, no PHI flag). -/
def nonPhiAsset : Asset :=
  { dataAssetId := "ASSET_0002", phiFlag := false, encryptionStatus := EncStatus.Encrypted }

theorem labelRow_fields (r : LogRow) :
    (labelRow r).phiFlag = r.phiFlag ∧
    (labelRow r).encryptionStatus = r.encryptionStatus ∧
    (labelRow r).timestamp = r.timestamp ∧
    (labelRow r).ipLocation = r.ipLocation := by
  simp [labelRow]

theorem violationHolds_labelRow (r : LogRow) :
    violationHolds (labelRow r) = violationHolds r := by
  simp [violationHolds, labelRow]

theorem labelRow_idem (r : LogRow) : labelRow (labelRow r) = labelRow r := by
  cases r
  simp [labelRow, violationHolds]

theorem violationHolds_iff (r : LogRow) :
    violationHolds r = true ↔
      ((r.phiFlag = true ∧ r.encryptionStatus = EncStatus.Plain)
        ∨ (21 ≤ r.timestamp.hour ∨ r.timestamp.hour < 5)
        ∨ r.ipLocation ≠ Region.US) := by
  simp [violationHolds, or_assoc]

/-- C1: for every row of the labeled table, `Policy_Violation` is `1` iff
one of the three rules holds on the row's final field values — plaintext
PHI, off-hours timestamp, or non-US IP region — and is `0` otherwise. -/
theorem labeler_matches_rules (t : List LogRow) (r : LogRow) (h : r ∈ labelTable t) :
    (r.policyViolation = 1 ↔
      ((r.phiFlag = true ∧ r.encryptionStatus = EncStatus.Plain)
        ∨ (21 ≤ r.timestamp.hour ∨ r.timestamp.hour < 5)
        ∨ r.ipLocation ≠ Region.US))
    ∧ (r.policyViolation = 0 ↔
      ¬ ((r.phiFlag = true ∧ r.encryptionStatus = EncStatus.Plain)
        ∨ (21 ≤ r.timestamp.hour ∨ r.timestamp.hour < 5)
        ∨ r.ipLocation ≠ Region.US)) := by
  obtain ⟨r0, _, rfl⟩ := List.mem_map.mp h
  rw [← violationHolds_iff (labelRow r0), violationHolds_labelRow]
  by_cases hv : violationHolds r0 = true
  · simp [labelRow, hv]
  · have hv' : violationHolds r0 = false := by simpa using hv
    simp [labelRow, hv']

theorem labeler_matches_rules_witness :
    ((labelRow sampleRow).policyViolation = 1 ↔
      (((labelRow sampleRow).phiFlag = true ∧ (labelRow sampleRow).encryptionStatus = EncStatus.Plain)
        ∨ (21 ≤ (labelRow sampleRow).timestamp.hour ∨ (labelRow sampleRow).timestamp.hour < 5)
        ∨ (labelRow sampleRow).ipLocation ≠ Region.US))
    ∧ ((labelRow sampleRow).policyViolation = 0 ↔
      ¬ (((labelRow sampleRow).phiFlag = true ∧ (labelRow sampleRow).encryptionStatus = EncStatus.Plain)
        ∨ (21 ≤ (labelRow sampleRow).timestamp.hour ∨ (labelRow sampleRow).timestamp.hour < 5)
        ∨ (labelRow sampleRow).ipLocation ≠ Region.US)) :=
  labeler_matches_rules [sampleRow] (labelRow sampleRow) (by simp [labelTable])

/-- C2: the labeler is a pure per-row function of the row's final
`(phi_flag, encryption_status, timestamp-hour, ip_region)` tuple, relabeling
an already-labeled table returns it unchanged (idempotence), and the pass is
independent of row processing order (it maps permutations to permutations). -/
theorem labeler_pure_idempotent_order_independent :
    (∀ r1 r2 : LogRow, r1.phiFlag = r2.phiFlag →
        r1.encryptionStatus = r2.encryptionStatus →
        r1.timestamp.hour = r2.timestamp.hour →
        r1.ipLocation = r2.ipLocation →
        (labelRow r1).policyViolation = (labelRow r2).policyViolation)
    ∧ (∀ t : List LogRow, labelTable (labelTable t) = labelTable t)
    ∧ (∀ t1 t2 : List LogRow, t1.Perm t2 → (labelTable t1).Perm (labelTable t2)) := by
  refine ⟨?_, ?_, ?_⟩
  · intro r1 r2 h1 h2 h3 h4
    have : violationHolds r1 = violationHolds r2 := by
      simp [violationHolds, h1, h2, h3, h4]
    simp [labelRow, this]
  · intro t
    simp only [labelTable, List.map_map]
    refine List.map_congr_left ?_
    intro r _
    exact labelRow_idem r
  · intro t1 t2 hp
    exact hp.map labelRow

theorem labeler_pure_idempotent_order_independent_witness :
    (labelRow sampleRow).policyViolation = (labelRow sampleRow).policyViolation :=
  (labeler_pure_idempotent_order_independent.1 sampleRow sampleRow rfl rfl rfl rfl)

theorem list_getD_mem {α : Type} (l : List α) (d : α) {n : Nat} (h : n < l.length) :
    l.getD n d ∈ l := by
  rw [List.getD_eq_getElem l d h]
  exact l.getElem_mem h

theorem string_append_cancel {s t u : String} (h : s ++ t = s ++ u) : t = u := by
  rcases s with ⟨ds⟩
  rcases t with ⟨dt⟩
  rcases u with ⟨du⟩
  simp only [HAppend.hAppend, Append.append, String.append] at h
  injection h with h2
  exact congrArg String.mk (List.append_cancel_left h2)

theorem digitChar_inj : ∀ x < 10, ∀ y < 10, Nat.digitChar x = Nat.digitChar y → x = y := by
  decide

theorem pad4_inj {a b : Nat} (ha : a < 10000) (hb : b < 10000) (h : pad4 a = pad4 b) :
    a = b := by
  simp only [pad4, if_pos ha, if_pos hb] at h
  have hd := congrArg String.data h
  simp only [List.cons.injEq, and_true] at hd
  obtain ⟨h1, h2, h3, h4⟩ := hd
  have e1 := digitChar_inj _ (Nat.mod_lt _ (by norm_num)) _ (Nat.mod_lt _ (by norm_num)) h1
  have e2 := digitChar_inj _ (Nat.mod_lt _ (by norm_num)) _ (Nat.mod_lt _ (by norm_num)) h2
  have e3 := digitChar_inj _ (Nat.mod_lt _ (by norm_num)) _ (Nat.mod_lt _ (by norm_num)) h3
  have e4 := digitChar_inj _ (Nat.mod_lt _ (by norm_num)) _ (Nat.mod_lt _ (by norm_num)) h4
  omega

theorem assetId_inj {a b : Nat} (ha : a < 10000) (hb : b < 10000) (h : assetId a = assetId b) :
    a = b := by
  have h2 : "ASSET_" ++ pad4 a = "ASSET_" ++ pad4 b := by simpa [assetId] using h
  exact pad4_inj ha hb (string_append_cancel h2)

theorem assetIds_genMetadata (n : Nat) (p : Nat → Bool) (e : Nat → EncStatus) :
    assetIds (genMetadata n p e) = (List.range n).map (fun j => assetId (j + 1)) := by
  simp only [assetIds, genMetadata, List.map_map]
  rfl

/-- C7: the asset generator yields exactly 500 assets, their IDs are
pairwise distinct, and position `j` (0-based) carries the sequential
zero-padded ID `assetId (j+1)`, running from `ASSET_0001` to `ASSET_0500`. -/
theorem asset_generator_unique_sequential_ids (p : Nat → Bool) (e : Nat → EncStatus) :
    (genMetadata 500 p e).length = 500
    ∧ (assetIds (genMetadata 500 p e)).Nodup
    ∧ (∀ j, j < 500 → (assetIds (genMetadata 500 p e))[j]? = some (assetId (j + 1)))
    ∧ assetId 1 = "ASSET_0001" ∧ assetId 500 = "ASSET_0500" := by
  refine ⟨by simp [genMetadata], ?_, ?_, ?_, ?_⟩
  · rw [assetIds_genMetadata]
    refine List.Nodup.map_on ?_ (List.nodup_range 500)
    intro x hx y hy hxy
    have hx' := List.mem_range.mp hx
    have hy' := List.mem_range.mp hy
    have := assetId_inj (a := x + 1) (b := y + 1) (by omega) (by omega) hxy
    omega
  · intro j hj
    rw [assetIds_genMetadata, List.getElem?_map, List.getElem?_range hj]
    rfl
  · rfl
  · rfl

theorem asset_generator_unique_sequential_ids_witness :
    (genMetadata 500 (fun _ => true) (fun _ => EncStatus.Plain)).length = 500 :=
  (asset_generator_unique_sequential_ids (fun _ => true) (fun _ => EncStatus.Plain)).1

theorem injectFrom_length (metadata : List Asset) (draws : Nat → AnomalyDraw) (sel : List Nat) :
    ∀ (i : Nat) (t : List LogRow), (injectFrom metadata draws sel i t).length = t.length := by
  intro i t
  induction t generalizing i with
  | nil => rfl
  | cons r rest ih => simp [injectFrom, ih]

theorem injectFrom_getElem? (metadata : List Asset) (draws : Nat → AnomalyDraw) (sel : List Nat) :
    ∀ (t : List LogRow) (i j : Nat),
      (injectFrom metadata draws sel i t)[j]? =
        (t[j]?).map
          (fun row => if i + j ∈ sel then applyAnomaly metadata (draws (i + j)) row else row) := by
  intro t
  induction t with
  | nil =>
    intro i j
    simp [injectFrom]
  | cons r rest ih =>
    intro i j
    cases j with
    | zero =>
      simp [injectFrom]
    | succ j2 =>
      have harith : i + 1 + j2 = i + (j2 + 1) := by omega
      simp only [injectFrom, List.getElem?_cons_succ]
      rw [ih (i + 1) j2, harith]

theorem injectAnomalies_getElem? (metadata : List Asset) (draws : Nat → AnomalyDraw)
    (sel : List Nat) (t : List LogRow) (j : Nat) :
    (injectAnomalies metadata draws sel t)[j]? =
      (t[j]?).map (fun row => if j ∈ sel then applyAnomaly metadata (draws j) row else row) := by
  have h := injectFrom_getElem? metadata draws sel t 0 j
  simpa [injectAnomalies] using h

/-- C3: selection takes the first `k` entries of a permutation of all row
indices, so exactly `k` pairwise-distinct positions are selected; each
selected row is replaced by a single `applyAnomaly` application of its one
drawn anomaly type (which is one of exactly three types), unselected rows
are untouched, and the row count is unchanged. -/
theorem anomaly_injection_selection (metadata : List Asset) (draws : Nat → AnomalyDraw)
    (t : List LogRow) (perm : List Nat) (k : Nat)
    (hperm : perm.Perm (List.range t.length)) (hk : k ≤ t.length) :
    (anomalyIndices perm k).length = k
    ∧ (anomalyIndices perm k).Nodup
    ∧ (injectAnomalies metadata draws (anomalyIndices perm k) t).length = t.length
    ∧ (∀ j, j ∈ anomalyIndices perm k →
        (injectAnomalies metadata draws (anomalyIndices perm k) t)[j]? =
          (t[j]?).map (applyAnomaly metadata (draws j)))
    ∧ (∀ j, j ∉ anomalyIndices perm k →
        (injectAnomalies metadata draws (anomalyIndices perm k) t)[j]? = t[j]?)
    ∧ (∀ d : AnomalyDraw, d.atype = AnomalyType.plain_phi ∨ d.atype = AnomalyType.off_hours
        ∨ d.atype = AnomalyType.non_us) := by
  have hlen : perm.length = t.length := by
    simpa using hperm.length_eq
  refine ⟨?_, ?_, injectFrom_length metadata draws _ 0 t, ?_, ?_, ?_⟩
  · rw [anomalyIndices, List.length_take]
    omega
  · have hnd : perm.Nodup := hperm.nodup_iff.mpr (List.nodup_range t.length)
    exact hnd.sublist (List.take_sublist k perm)
  · intro j hj
    rw [injectAnomalies_getElem?]
    have : (fun row => if j ∈ anomalyIndices perm k
        then applyAnomaly metadata (draws j) row else row) = applyAnomaly metadata (draws j) := by
      funext row
      rw [if_pos hj]
    rw [this]
  · intro j hj
    rw [injectAnomalies_getElem?]
    have : (fun row => if j ∈ anomalyIndices perm k
        then applyAnomaly metadata (draws j) row else row) = fun row => row := by
      funext row
      rw [if_neg hj]
    rw [this]
    cases t[j]? <;> rfl
  · intro d
    cases h : d.atype
    · exact Or.inl rfl
    · exact Or.inr (Or.inl rfl)
    · exact Or.inr (Or.inr rfl)

theorem anomaly_injection_selection_witness :
    (anomalyIndices [1, 0] 1).length = 1 :=
  (anomaly_injection_selection [] (fun _ => sampleNonUsDraw) [sampleRow, euRow] [1, 0] 1
    (by decide) (by decide)).1

theorem plainPhiIds_subset (metadata : List Asset) :
    ∀ s ∈ plainPhiIds metadata, s ∈ assetIds metadata := by
  intro s hs
  simp only [plainPhiIds, List.mem_map] at hs
  obtain ⟨a, ha, rfl⟩ := hs
  exact List.mem_map.mpr ⟨a, List.mem_of_mem_filter ha, rfl⟩

theorem applyAnomaly_assetId_mem (metadata : List Asset) (d : AnomalyDraw) (row : LogRow)
    (h : row.dataAssetId ∈ assetIds metadata) :
    (applyAnomaly metadata d row).dataAssetId ∈ assetIds metadata := by
  cases hty : d.atype with
  | plain_phi =>
    simp only [applyAnomaly, hty]
    by_cases hpos : 0 < (plainPhiIds metadata).length
    · rw [if_pos hpos]
      exact plainPhiIds_subset metadata _ (list_getD_mem _ _ (Nat.mod_lt _ hpos))
    · rw [if_neg hpos]
      exact h
  | off_hours =>
    simpa [applyAnomaly, hty] using h
  | non_us =>
    simpa [applyAnomaly, hty] using h

theorem injectFrom_preserves_assetId_mem (metadata : List Asset) (draws : Nat → AnomalyDraw)
    (sel : List Nat) :
    ∀ (t : List LogRow) (i : Nat), (∀ r ∈ t, r.dataAssetId ∈ assetIds metadata) →
      ∀ r ∈ injectFrom metadata draws sel i t, r.dataAssetId ∈ assetIds metadata := by
  intro t
  induction t with
  | nil =>
    intro i _ r hr
    simp [injectFrom] at hr
  | cons row rest ih =>
    intro i hall r hr
    simp only [injectFrom, List.mem_cons] at hr
    rcases hr with rfl | hr
    · by_cases hi : i ∈ sel
      · rw [if_pos hi]
        exact applyAnomaly_assetId_mem metadata (draws i) row (hall row (List.mem_cons_self row rest))
      · rw [if_neg hi]
        exact hall row (List.mem_cons_self row rest)
    · exact ih (i + 1) (fun x hx => hall x (List.mem_cons_of_mem row hx)) r hr

/-- C6: referential integrity — every generated log row's asset ID is a
member of the asset table's ID column, and the injection pass preserves
table-wide membership of asset IDs in that column (it only ever swaps a
row's ID for another ID of the table itself). -/
theorem referential_integrity (metadata : List Asset) (hm : metadata ≠ []) :
    (∀ d : LogDraw, (genLogRow metadata d).dataAssetId ∈ assetIds metadata)
    ∧ (∀ (draws : Nat → AnomalyDraw) (sel : List Nat) (t : List LogRow),
        (∀ r ∈ t, r.dataAssetId ∈ assetIds metadata) →
        ∀ r ∈ injectAnomalies metadata draws sel t, r.dataAssetId ∈ assetIds metadata) := by
  constructor
  · intro d
    have hlen : 0 < metadata.length := List.length_pos.mpr hm
    have hidx : d.assetDraw % metadata.length < (assetIds metadata).length := by
      rw [assetIds, List.length_map]
      exact Nat.mod_lt _ hlen
    exact list_getD_mem (assetIds metadata) "" hidx
  · intro draws sel t hall r hr
    exact injectFrom_preserves_assetId_mem metadata draws sel t 0 hall r hr

theorem referential_integrity_witness :
    (genLogRow [sampleAsset] sampleLogDraw).dataAssetId ∈ assetIds [sampleAsset] :=
  (referential_integrity [sampleAsset] (by simp)).1 sampleLogDraw

/-- C4 is refuted at a concrete input: with a prior IP region of EU and a
draw that picks EU, the non_us mutation leaves `ip_region` equal to its
prior value, so the replacement does not guarantee a change for every
possible prior value. -/
theorem non_us_keeps_prior_region_counterexample :
    (applyAnomaly [] sampleNonUsDraw euRow).ipLocation = euRow.ipLocation
    ∧ euRow.ipLocation = Region.EU :=
  ⟨rfl, rfl⟩

/-- C4 (amended): a non_us mutation always sets `ip_region` to a value in
{EU, AS}; this guarantees a change from the prior value whenever the prior
value was US, but when the prior value was already EU or AS the drawn value
may coincide with it. -/
theorem non_us_lands_in_eu_as (metadata : List Asset) (d : AnomalyDraw) (row : LogRow)
    (hty : d.atype = AnomalyType.non_us) :
    ((applyAnomaly metadata d row).ipLocation = Region.EU
      ∨ (applyAnomaly metadata d row).ipLocation = Region.AS)
    ∧ (row.ipLocation = Region.US →
        (applyAnomaly metadata d row).ipLocation ≠ row.ipLocation) := by
  cases row
  constructor
  · cases hpick : d.euPick
    · right
      simp [applyAnomaly, hty, hpick]
    · left
      simp [applyAnomaly, hty, hpick]
  · intro hUS
    cases hpick : d.euPick <;> simp_all [applyAnomaly, hty, hpick]

theorem non_us_lands_in_eu_as_witness :
    (applyAnomaly [] sampleNonUsDraw sampleRow).ipLocation = Region.EU
    ∨ (applyAnomaly [] sampleNonUsDraw sampleRow).ipLocation = Region.AS :=
  (non_us_lands_in_eu_as [] sampleNonUsDraw sampleRow rfl).1

/-- C5: if the asset table has no asset with `phi_flag` true and
`encryption_status` Plain, a plain_phi injection leaves the target row
completely unchanged; the mutation is a total function, so no error is
raised and the pipeline continues. -/
theorem plain_phi_noop_without_plain_phi_assets (metadata : List Asset) (d : AnomalyDraw)
    (row : LogRow) (hty : d.atype = AnomalyType.plain_phi)
    (hnone : ∀ a ∈ metadata, ¬ (a.phiFlag = true ∧ a.encryptionStatus = EncStatus.Plain)) :
    applyAnomaly metadata d row = row := by
  have hfil : metadata.filter (fun a => a.phiFlag && a.encryptionStatus == EncStatus.Plain) = [] := by
    rw [List.filter_eq_nil_iff]
    intro a ha
    have hna := hnone a ha
    simp only [Bool.and_eq_true, beq_iff_eq]
    exact fun hc => hna ⟨hc.1, hc.2⟩
  have hids : plainPhiIds metadata = [] := by
    rw [plainPhiIds, hfil, List.map_nil]
  simp [applyAnomaly, hty, hids]

theorem plain_phi_noop_without_plain_phi_assets_witness :
    applyAnomaly [nonPhiAsset] samplePlainPhiDraw sampleRow = sampleRow :=
  plain_phi_noop_without_plain_phi_assets [nonPhiAsset] samplePlainPhiDraw sampleRow rfl
    (by decide)

theorem offHoursChoices_getD_bounds (k : Nat) (hk : k < 8) :
    21 ≤ offHoursChoices.getD k 0 ∨ offHoursChoices.getD k 0 < 5 := by
  interval_cases k <;> simp [offHoursChoices]

/-- C8: an off_hours mutation puts the timestamp's hour into
{21, 22, 23, 0, 1, 2, 3, 4} and its minute into [0, 60), keeps the date
(the day offset) unchanged, and leaves every other field of the row
unchanged. -/
theorem off_hours_frame (metadata : List Asset) (d : AnomalyDraw) (row : LogRow)
    (hty : d.atype = AnomalyType.off_hours) :
    (applyAnomaly metadata d row).timestamp.hour ∈ offHoursChoices
    ∧ (applyAnomaly metadata d row).timestamp.minute < 60
    ∧ (applyAnomaly metadata d row).timestamp.day = row.timestamp.day
    ∧ (applyAnomaly metadata d row).userId = row.userId
    ∧ (applyAnomaly metadata d row).dataAssetId = row.dataAssetId
    ∧ (applyAnomaly metadata d row).accessType = row.accessType
    ∧ (applyAnomaly metadata d row).ipLocation = row.ipLocation
    ∧ (applyAnomaly metadata d row).phiFlag = row.phiFlag
    ∧ (applyAnomaly metadata d row).encryptionStatus = row.encryptionStatus
    ∧ (applyAnomaly metadata d row).policyViolation = row.policyViolation := by
  cases row
  simp only [applyAnomaly, hty]
  refine ⟨?_, ?_, ?_, ?_, ?_, ?_, ?_, ?_, ?_, ?_⟩
  · exact list_getD_mem _ _ (Nat.mod_lt _ (by norm_num))
  · exact Nat.mod_lt _ (by norm_num)
  all_goals trivial

theorem off_hours_frame_witness :
    (applyAnomaly [] sampleOffHoursDraw sampleRow).timestamp.hour ∈ offHoursChoices :=
  (off_hours_frame [] sampleOffHoursDraw sampleRow rfl).1

theorem find?_eq_of_nodup :
    ∀ (metadata : List Asset), (assetIds metadata).Nodup →
      ∀ a ∈ metadata, metadata.find? (fun x => x.dataAssetId == a.dataAssetId) = some a := by
  intro metadata
  induction metadata with
  | nil =>
    intro _ a ha
    cases ha
  | cons b rest ih =>
    intro hnd a ha
    have hnd2 : b.dataAssetId ∉ assetIds rest ∧ (assetIds rest).Nodup := by
      simpa [assetIds, List.nodup_cons] using hnd
    by_cases hb : b.dataAssetId = a.dataAssetId
    · have hab : a = b := by
        rcases List.mem_cons.mp ha with h | h
        · exact h
        · exfalso
          exact hnd2.1 (hb ▸ List.mem_map.mpr ⟨a, h, rfl⟩)
      rw [hab]
      exact List.find?_cons_of_pos rest (by simp)
    · have hmem : a ∈ rest := by
        rcases List.mem_cons.mp ha with h | h
        · exact absurd (congrArg Asset.dataAssetId h.symm) hb
        · exact h
      rw [List.find?_cons_of_neg rest (by simpa using hb), ih hnd2.2 a hmem]

theorem consistentRow_enrich (metadata : List Asset) (r : RawLogRow)
    (h : r.dataAssetId ∈ assetIds metadata) :
    consistentRow metadata (enrich metadata r) = true := by
  rcases hfind : metadata.find? (fun x => x.dataAssetId == r.dataAssetId) with _ | b
  · exfalso
    obtain ⟨a, ha, heq⟩ := List.mem_map.mp h
    have := List.find?_eq_none.mp hfind a ha
    simp [heq] at this
  · rcases r with ⟨ts, uid, aid, at2, ip⟩
    simp only [enrich, hfind, consistentRow]
    simp

theorem plainPhiIds_spec (metadata : List Asset) {s : String} (hs : s ∈ plainPhiIds metadata) :
    ∃ a, a ∈ metadata ∧ a.dataAssetId = s ∧ a.phiFlag = true
      ∧ a.encryptionStatus = EncStatus.Plain := by
  simp only [plainPhiIds, List.mem_map] at hs
  obtain ⟨a, haf, rfl⟩ := hs
  refine ⟨a, List.mem_of_mem_filter haf, rfl, ?_⟩
  have hf := List.of_mem_filter haf
  simpa using hf

theorem consistentRow_applyAnomaly (metadata : List Asset) (hnd : (assetIds metadata).Nodup)
    (d : AnomalyDraw) (row : LogRow) (h : consistentRow metadata row = true) :
    consistentRow metadata (applyAnomaly metadata d row) = true := by
  rcases row with ⟨ts, uid, aid, at2, ip, phi, enc, pv⟩
  cases hty : d.atype with
  | plain_phi =>
    simp only [applyAnomaly, hty]
    by_cases hpos : 0 < (plainPhiIds metadata).length
    · rw [if_pos hpos]
      have hmem : (plainPhiIds metadata).getD (d.assetDraw % (plainPhiIds metadata).length) ""
          ∈ plainPhiIds metadata := list_getD_mem _ _ (Nat.mod_lt _ hpos)
      obtain ⟨a, hafm, hid, hphi, henc⟩ := plainPhiIds_spec metadata hmem
      rw [← hid]
      have hfind := find?_eq_of_nodup metadata hnd a hafm
      simp [consistentRow, hfind, hphi, henc]
    · rw [if_neg hpos]
      exact h
  | off_hours =>
    simpa [consistentRow, applyAnomaly, hty] using h
  | non_us =>
    simpa [consistentRow, applyAnomaly, hty] using h

theorem injectFrom_preserves_consistent (metadata : List Asset) (hnd : (assetIds metadata).Nodup)
    (draws : Nat → AnomalyDraw) (sel : List Nat) :
    ∀ (t : List LogRow) (i : Nat), (∀ r ∈ t, consistentRow metadata r = true) →
      ∀ r ∈ injectFrom metadata draws sel i t, consistentRow metadata r = true := by
  intro t
  induction t with
  | nil =>
    intro i _ r hr
    simp [injectFrom] at hr
  | cons row rest ih =>
    intro i hall r hr
    simp only [injectFrom, List.mem_cons] at hr
    rcases hr with rfl | hr
    · by_cases hi : i ∈ sel
      · rw [if_pos hi]
        exact consistentRow_applyAnomaly metadata hnd (draws i) row
          (hall row (List.mem_cons_self row rest))
      · rw [if_neg hi]
        exact hall row (List.mem_cons_self row rest)
    · exact ih (i + 1) (fun x hx => hall x (List.mem_cons_of_mem row hx)) r hr

/-- C9: when the labeler runs (after injection), every row's denormalized
`PHI_Flag` and `Encryption_Status` equal those of the asset its
`Data_Asset_ID` references: the merge establishes the invariant and every
anomaly branch preserves it (plain_phi re-establishes it as it swaps the
ID, the other two branches touch neither the ID nor the denormalized
fields). -/
theorem denormalized_fields_consistent (metadata : List Asset)
    (hnd : (assetIds metadata).Nodup) (draws : Nat → AnomalyDraw) (sel : List Nat)
    (t : List RawLogRow) (hid : ∀ r ∈ t, r.dataAssetId ∈ assetIds metadata) :
    ∀ r ∈ injectAnomalies metadata draws sel (t.map (enrich metadata)),
      consistentRow metadata r = true := by
  intro r hr
  have hbase : ∀ x ∈ t.map (enrich metadata), consistentRow metadata x = true := by
    intro x hx
    obtain ⟨x0, hx0, rfl⟩ := List.mem_map.mp hx
    exact consistentRow_enrich metadata x0 (hid x0 hx0)
  exact injectFrom_preserves_consistent metadata hnd draws sel (t.map (enrich metadata)) 0
    hbase r hr

theorem denormalized_fields_consistent_witness :
    consistentRow [sampleAsset] (enrich [sampleAsset] sampleRaw) = true :=
  denormalized_fields_consistent [sampleAsset] (by decide) (fun _ => sampleNonUsDraw) []
    [sampleRaw] (by decide) (enrich [sampleAsset] sampleRaw) (by decide)

theorem violation_of_hour (r : LogRow)
    (h : 21 ≤ r.timestamp.hour ∨ r.timestamp.hour < 5) :
    (labelRow r).policyViolation = 1 := by
  have hv : violationHolds r = true := (violationHolds_iff r).mpr (Or.inr (Or.inl h))
  simp [labelRow, hv]

theorem violation_of_region (r : LogRow) (h : r.ipLocation ≠ Region.US) :
    (labelRow r).policyViolation = 1 := by
  have hv : violationHolds r = true := (violationHolds_iff r).mpr (Or.inr (Or.inr h))
  simp [labelRow, hv]

/-- C10: every row mutated by the off_hours type and every row mutated by
the non_us type is necessarily labeled `Policy_Violation = 1` (off_hours
forces the hour into the off-hours window, non_us forces a non-US region),
while a plain_phi mutation can hit its no-op edge case and leave a
selected row labeled `0`. -/
theorem injected_rows_labeled (metadata : List Asset) (d : AnomalyDraw) (row : LogRow) :
    (d.atype = AnomalyType.off_hours →
      (labelRow (applyAnomaly metadata d row)).policyViolation = 1)
    ∧ (d.atype = AnomalyType.non_us →
      (labelRow (applyAnomaly metadata d row)).policyViolation = 1)
    ∧ (∃ (metadata2 : List Asset) (d2 : AnomalyDraw) (row2 : LogRow),
        d2.atype = AnomalyType.plain_phi ∧ applyAnomaly metadata2 d2 row2 = row2
          ∧ (labelRow row2).policyViolation = 0) := by
  refine ⟨?_, ?_, ⟨[], samplePlainPhiDraw, sampleRow, rfl, rfl, rfl⟩⟩
  · intro hty
    refine violation_of_hour _ ?_
    have hb := offHoursChoices_getD_bounds (d.hourDraw % 8) (Nat.mod_lt _ (by norm_num))
    rcases row with ⟨ts, uid, aid, at2, ip, phi, enc, pv⟩
    simpa [applyAnomaly, hty] using hb
  · intro hty
    refine violation_of_region _ ?_
    rcases row with ⟨ts, uid, aid, at2, ip, phi, enc, pv⟩
    cases hpick : d.euPick <;> simp [applyAnomaly, hty, hpick]

theorem injected_rows_labeled_witness :
    (labelRow (applyAnomaly [] sampleOffHoursDraw sampleRow)).policyViolation = 1 :=
  (injected_rows_labeled [] sampleOffHoursDraw sampleRow).1 rfl
